import Mathlib

/-!
Verification development for the `monthlytimeseries` repository.

The repository provides two temporal cross-validation splitters:
* `MonthlyTimeSeriesSplit` (src/time_split_mensal.py) — buckets rows by
  calendar month and delegates to sklearn's `TimeSeriesSplit` over the ordered
  list of unique months;
* `AnchorSplit` (src/validacao_cruzada.py) — walks backward year by year from
  an execution date, re-deriving a weekday/ordinal anchor per year, snapping it
  back to a business day, and emitting a business-day test window plus all
  strictly prior rows as train.

Dates are embedded as civil (year, month, day) triples together with their
day number since 1970-01-01 (`daysFromCivil`, the standard civil-from-days
algorithm with Euclidean division).  Pandas timestamps compare by this day
number; `weekday` is pandas convention (Monday = 0).  sklearn's
`TimeSeriesSplit` and pandas' `CustomBusinessDay` are external collaborators
of the repository; they are modelled below from their documented/actual
algorithms (`timeSeriesSplitFolds`, `addBDays`).
-/

/-- A civil calendar date, as carried by a `pd.Timestamp` (times are zero
throughout the repository). -/
structure Date where
  y : Int
  m : Int
  d : Int
deriving DecidableEq, Repr

/-- Day number since 1970-01-01 of a civil date (Howard Hinnant's
`days_from_civil`, written with Euclidean division, which agrees with floor
division for the positive divisors used here).  This is the day count a
`pd.Timestamp` orders by. -/
def daysFromCivil (y m d : Int) : Int :=
  let yr := if m ≤ 2 then y - 1 else y
  let era := yr / 400
  let yoe := yr - era * 400
  let mp := if 2 < m then m - 3 else m + 9
  let doy := (153 * mp + 2) / 5 + d - 1
  let doe := yoe * 365 + yoe / 4 - yoe / 100 + doy
  era * 146097 + doe - 719468

/-- Day number of a `Date`. -/
def Date.toDay (dt : Date) : Int :=
  daysFromCivil dt.y dt.m dt.d

/-- Pandas weekday of a day number: Monday = 0 … Sunday = 6
(1970-01-01, day 0, was a Thursday, weekday 3). -/
def weekday (z : Int) : Int :=
  (z + 3) % 7

/-- Leap year test of the Gregorian calendar. -/
def isLeap (y : Int) : Bool :=
  y % 4 = 0 && (y % 100 ≠ 0 || y % 400 = 0)

/-- Number of days of month `m` of year `y`. -/
def daysInMonth (y m : Int) : Int :=
  if m = 2 then (if isLeap y then 29 else 28)
  else if m = 4 ∨ m = 6 ∨ m = 9 ∨ m = 11 then 30
  else 31

/-- A civil triple that denotes an actual calendar date. -/
def ValidDate (dt : Date) : Prop :=
  1 ≤ dt.m ∧ dt.m ≤ 12 ∧ 1 ≤ dt.d ∧ dt.d ≤ daysInMonth dt.y dt.m

instance : DecidablePred ValidDate := fun dt => by
  unfold ValidDate; infer_instance

/-- Month-period ordinal of a date, as compared by `pd.Period` with monthly
frequency (`to_period('M')`): months are ordered by `12 * year + (month - 1)`. -/
def monthIdx (dt : Date) : Int :=
  12 * dt.y + (dt.m - 1)

/-- `True` iff day number `z` is a business day: a weekday (Mon–Fri) that is
not in the holiday list.  This is the negation of the loop guard
`anchor.weekday() >= 5 or anchor in self.holidays` of
`AnchorSplit._anchor_for_year`. -/
def isBusinessDay (holidays : List Int) (z : Int) : Bool :=
  decide (weekday z < 5 ∧ z ∉ holidays)

/-- Greatest weekday (Mon–Fri) at or before `z`. -/
def wkdayBelow (z : Int) : Int :=
  if 5 ≤ weekday z then z - (weekday z - 4) else z

/-- A computable business day at or below `z`: step below `z` and below every
holiday, then snap to a weekday.  Used only to bound the fuel of the snapping
loop; its defining properties are proved in `businessFloor_spec`. -/
def businessFloor (holidays : List Int) (z : Int) : Int :=
  wkdayBelow (min z (holidays.foldr min z) - 1)

/-- Fuel-bounded version of the backward snapping loop of
`AnchorSplit._anchor_for_year`: step back one day while the current day is a
weekend day or a holiday. -/
def snapFuel (holidays : List Int) : Nat → Int → Int
  | 0, z => z
  | n + 1, z => if isBusinessDay holidays z then z else snapFuel holidays n (z - 1)

/-- The backward business-day snapping loop (lines 60–62 of
src/validacao_cruzada.py).  The fuel `(z - businessFloor …).toNat + 1` is
proved sufficient (`snapToBD_spec`), so this equals the loop's exact result:
the greatest business day at or before `z`. -/
def snapToBD (holidays : List Int) (z : Int) : Int :=
  snapFuel holidays ((z - businessFloor holidays z).toNat + 1) z

/-- Least weekday (Mon–Fri) at or after `z`. -/
def wkdayAbove (z : Int) : Int :=
  if 5 ≤ weekday z then z + (7 - weekday z) else z

/-- A computable business day at or above `z` (dual of `businessFloor`). -/
def businessCeil (holidays : List Int) (z : Int) : Int :=
  wkdayAbove (max z (holidays.foldr max z) + 1)

/-- Fuel-bounded forward walk to the next business day at or after `z`. -/
def seekFwd (holidays : List Int) : Nat → Int → Int
  | 0, z => z
  | n + 1, z => if isBusinessDay holidays z then z else seekFwd holidays n (z + 1)

/-- Least business day strictly after `z`. -/
def nextBD (holidays : List Int) (z : Int) : Int :=
  seekFwd holidays ((businessCeil holidays z - (z + 1)).toNat + 1) (z + 1)

/-- Greatest business day strictly before `z`. -/
def prevBD (holidays : List Int) (z : Int) : Int :=
  snapToBD holidays (z - 1)

/-- `n` hops forward along business days. -/
def fwdBDs (holidays : List Int) (z : Int) : Nat → Int
  | 0 => z
  | n + 1 => fwdBDs holidays (nextBD holidays z) n

/-- `n` hops backward along business days. -/
def backBDs (holidays : List Int) (z : Int) : Nat → Int
  | 0 => z
  | n + 1 => backBDs holidays (prevBD holidays z) n

/-- Model of pandas `date + CustomBusinessDay(n, holidays)` for a date that
already lies on a business day (the only way the repository applies it: the
anchor is always post-snapping): `n ≥ 0` advances `n` business days (`n = 0`
is the identity on a business day), `n < 0` steps back `-n` business days. -/
def addBDays (holidays : List Int) (z : Int) (n : Int) : Int :=
  if n < 0 then backBDs holidays z (-n).toNat else fwdBDs holidays z n.toNat

/-- Positions of the elements of `l` satisfying `p`, in order — the model of
`np.where(cond)[0]` and of boolean-mask row selection on a DataFrame with the
default range index. -/
def idxWhere (p : α → Bool) : List α → List Nat
  | [] => []
  | x :: xs =>
    if p x then 0 :: (idxWhere p xs).map (· + 1)
    else (idxWhere p xs).map (· + 1)

/-- Errors a Python call in the modelled repository can raise. -/
inductive PyErr where
  | typeError
  | indexError
  | valueError
deriving DecidableEq, Repr

/-- The argument passed to `AnchorSplit.split`: either a sequence of
timestamps, or a value that pandas cannot interpret as datetimes (in which
case `pd.DatetimeIndex(X)` / the explicit dtype check fails before the
generator yields anything). -/
inductive PyInput where
  | dates (l : List Date)
  | other
deriving DecidableEq, Repr

/-- One fold as observed by the caller of `AnchorSplit.split`: the yielded
`(train_idx, test_idx)` pair, its 1-based fold number, and the
`warnings.warn` events (fold number, train row count) emitted while producing
it. -/
structure Fold where
  foldNo : Nat
  train : List Nat
  test : List Nat
  warnings : List (Nat × Nat)
deriving DecidableEq, Repr

/-- Configuration state of `AnchorSplit` after `__init__`
(src/validacao_cruzada.py lines 33–50). -/
structure AnchorSplit where
  exec_date : Date
  n_splits : Int
  holidays : List Date
  test_size : Int
  min_date : Option Date
  wkPat : Int
  ordPat : Int
deriving DecidableEq, Repr

/-- The record `AnchorSplit.__init__` builds: stores the arguments and
captures the anchor pattern `_wk = exec_date.weekday()` and
`_ord = 1 + (exec_date.day - 1) // 7`. -/
def AnchorSplit.initCfg (exec : Date) (nSplits : Int) (hol : List Date)
    (testSizeBd : Int) (minDate : Option Date) : AnchorSplit :=
  { exec_date := exec
    n_splits := nSplits
    holidays := hol
    test_size := testSizeBd
    min_date := minDate
    wkPat := weekday (Date.toDay exec)
    ordPat := 1 + (exec.d - 1) / 7 }

/-- `AnchorSplit.__init__` as a fallible Python call.  The source contains no
validation and no raise statement on these arguments, so construction always
succeeds. -/
def AnchorSplit.init (exec : Date) (nSplits : Int) (hol : List Date)
    (testSizeBd : Int) (minDate : Option Date) : Except PyErr AnchorSplit :=
  .ok (AnchorSplit.initCfg exec nSplits hol testSizeBd minDate)

/-- Holiday timestamps as day numbers. -/
def AnchorSplit.hol (cfg : AnchorSplit) : List Int :=
  cfg.holidays.map Date.toDay

/-- The pre-snapping anchor candidate of `_anchor_for_year` (lines 56–58):
first day of the target year's execution month, advanced to the captured
weekday, plus 7 days per captured ordinal step. -/
def AnchorSplit.candidateForYear (cfg : AnchorSplit) (year : Int) : Int :=
  let first := daysFromCivil year cfg.exec_date.m 1
  let delta := (cfg.wkPat - weekday first) % 7
  first + (delta + 7 * (cfg.ordPat - 1))

/-- `AnchorSplit._anchor_for_year` (lines 54–62): the candidate, snapped back
to the previous business day while it falls on a weekend or holiday. -/
def AnchorSplit.anchorForYear (cfg : AnchorSplit) (year : Int) : Int :=
  snapToBD cfg.hol (cfg.candidateForYear year)

/-- `test_end = anchor + CustomBusinessDay(n=test_size - 1, holidays)`
(lines 82–87). -/
def AnchorSplit.testEndFor (cfg : AnchorSplit) (anchor : Int) : Int :=
  addBDays cfg.hol anchor (cfg.test_size - 1)

/-- `test_idx = np.where((dates >= anchor) & (dates <= test_end))[0]`
(line 89). -/
def AnchorSplit.testIdxFor (cfg : AnchorSplit) (X : List Date) (anchor : Int) :
    List Nat :=
  idxWhere
    (fun dt => decide (anchor ≤ dt.toDay) && decide (dt.toDay ≤ cfg.testEndFor anchor))
    X

/-- `train_idx = np.where(dates < anchor)[0]` (line 94). -/
def AnchorSplit.trainIdxFor (X : List Date) (anchor : Int) : List Nat :=
  idxWhere (fun dt => decide (dt.toDay < anchor)) X

/-- The year values visited by the while loop: `exec_date.year - 1` down to
`dates[0].year` inclusive (the loop guard `year >= dates[0].year`). -/
def yearsList (y0 lo : Int) : List Int :=
  (List.range (y0 - lo + 1).toNat).map (fun k => y0 - k)

/-- The body of the while loop of `AnchorSplit.split` (lines 75–102), as a
recursion over the descending year list, carrying the `folds` counter:
stop when `folds` reaches `n_splits`; break when the anchor falls before
`min_date`; skip the year when the test window catches no row; otherwise
yield the fold (with its low-train warning, if any) and count it. -/
def AnchorSplit.splitGo (cfg : AnchorSplit) (X : List Date) :
    List Int → Nat → List Fold
  | [], _ => []
  | year :: ys, folds =>
    if cfg.n_splits ≤ (folds : Int) then []
    else
      let anchor := cfg.anchorForYear year
      if (match cfg.min_date with
          | some md => decide (anchor < md.toDay)
          | none => false) then []
      else
        let testIdx := cfg.testIdxFor X anchor
        if testIdx.isEmpty then AnchorSplit.splitGo cfg X ys folds
        else
          let trainIdx := AnchorSplit.trainIdxFor X anchor
          { foldNo := folds + 1
            train := trainIdx
            test := testIdx
            warnings :=
              if trainIdx.length < 252 then [(folds + 1, trainIdx.length)] else [] }
            :: AnchorSplit.splitGo cfg X ys (folds + 1)

/-- `AnchorSplit.split` (lines 66–102) as the sequence of folds the generator
produces, or the Python error that interrupts it: non-datetime input fails the
`pd.DatetimeIndex` conversion / dtype check (TypeError-equivalent, before any
fold); an empty datetime input hits `dates[0]` in the loop guard (IndexError)
unless `n_splits <= 0` short-circuits the guard first. -/
def AnchorSplit.split (cfg : AnchorSplit) (input : PyInput) :
    Except PyErr (List Fold) :=
  match input with
  | .other => .error .typeError
  | .dates X =>
    if cfg.n_splits ≤ 0 then .ok []
    else
      match X with
      | [] => .error .indexError
      | d0 :: _ =>
        .ok (cfg.splitGo X (yearsList (cfg.exec_date.y - 1) d0.y) 0)

/-- `get_n_splits` (lines 105–106). -/
def AnchorSplit.get_n_splits (cfg : AnchorSplit) : Int :=
  cfg.n_splits

/-- The 1-based occurrence count of `exec`'s weekday within its own month up
to `exec` itself: the number of days `1 ≤ j ≤ exec.day` of the same month
whose weekday equals `exec`'s weekday. -/
def weekdayOccurrence (exec : Date) : Nat :=
  (List.range exec.d.toNat).countP
    (fun (k : Nat) => decide (weekday (daysFromCivil exec.y exec.m ((k : Int) + 1))
                      = weekday (Date.toDay exec)))

/-- Indices `i` of a length-`n` index array with `a ≤ i < b` — the model of
the numpy slice `indices[a:b]` for the non-negative slice bounds produced by
`TimeSeriesSplit` (Python clamps an overlong upper bound to `n`). -/
def sliceIdx (a b : Int) (n : Nat) : List Nat :=
  (List.range n).filter (fun i => decide (a ≤ (i : Int)) && decide ((i : Int) < b))

/-- Python `range(start, stop, step)` over integers; `step = 0` raises a
ValueError. -/
def pyRange (start stop step : Int) : Except PyErr (List Int) :=
  if step = 0 then .error .valueError
  else if 0 < step then
    .ok ((List.range ((stop - start + step - 1) / step).toNat).map
      (fun j => start + (j : Int) * step))
  else
    .ok ((List.range ((start - stop + (-step) - 1) / (-step)).toNat).map
      (fun j => start + (j : Int) * step))

/-- Model of sklearn's `TimeSeriesSplit` (the external expanding-window
collaborator of `MonthlyTimeSeriesSplit.split`), from its implementation:
the constructor rejects `n_splits <= 1`; `split` over `n` samples rejects
`n_splits + 1 > n` and a non-positive `n - gap - test_size * n_splits`;
test windows of size `test_size` (default `n // (n_splits + 1)`) start at
`range(n - n_splits * test_size, n, test_size)`; each train side is
`indices[:test_start - gap]`, capped to its last `max_train_size` entries when
that option is truthy and smaller than the train end. -/
def timeSeriesSplitFolds (nSplits : Int) (maxTrainSize : Option Int)
    (testSizeOpt : Option Int) (gap : Int) (n : Nat) :
    Except PyErr (List (List Nat × List Nat)) :=
  if nSplits ≤ 1 then .error .valueError
  else
    let nFolds := nSplits + 1
    if (n : Int) < nFolds then .error .valueError
    else
      let testSize := testSizeOpt.getD ((n : Int) / nFolds)
      if (n : Int) - gap - testSize * nSplits ≤ 0 then .error .valueError
      else
        match pyRange ((n : Int) - nSplits * testSize) (n : Int) testSize with
        | .error e => .error e
        | .ok starts => .ok (starts.map (fun ts =>
          let trainEnd := ts - gap
          let train :=
            match maxTrainSize with
            | some mts =>
              if mts ≠ 0 ∧ mts < trainEnd then sliceIdx (trainEnd - mts) trainEnd n
              else sliceIdx 0 trainEnd n
            | none => sliceIdx 0 trainEnd n
          (train, sliceIdx ts (ts + testSize) n)))

/-- First-occurrence deduplication with an accumulator of already seen
values — the model of `pd.Series.unique`, which keeps values in order of
first appearance. -/
def uniqueAux [DecidableEq α] : List α → List α → List α
  | _, [] => []
  | seen, x :: xs =>
    if x ∈ seen then uniqueAux seen xs else x :: uniqueAux (x :: seen) xs

/-- Distinct values of a list in order of first appearance. -/
def uniqueFirst [DecidableEq α] (l : List α) : List α :=
  uniqueAux [] l

/-- Configuration of `MonthlyTimeSeriesSplit` (src/time_split_mensal.py,
lines 38–52).  The date column name plays no role in the model, where a row
is its date. -/
structure MonthlyTimeSeriesSplit where
  n_splits : Int
  max_train_size : Option Int
  test_size : Option Int
  gap : Int
  min_days_in_last_month : Option Int
deriving DecidableEq, Repr

/-- Lines 84–97 of `MonthlyTimeSeriesSplit.split`: the ordered unique month
buckets, with the last bucket removed when `min_days_in_last_month` is set
and the maximum day-of-month observed in the last bucket's rows stays below
it.  `unique_months[-1]` on an empty bucket list raises an IndexError; an
empty maximum (`NaN`) compares false and keeps the bucket. -/
def MonthlyTimeSeriesSplit.bucketList (cfg : MonthlyTimeSeriesSplit)
    (X : List Date) : Except PyErr (List Int) :=
  let uM := uniqueFirst (X.map monthIdx)
  match cfg.min_days_in_last_month with
  | none => .ok uM
  | some thr =>
    match uM.getLast? with
    | none => .error .indexError
    | some lm =>
      match ((X.filter (fun r => decide (monthIdx r = lm))).map Date.d).max? with
      | some maxDay => .ok (if maxDay < thr then uM.dropLast else uM)
      | none => .ok uM

/-- `MonthlyTimeSeriesSplit.split` (lines 55–116): bucket the rows by month,
possibly drop the last bucket, let `TimeSeriesSplit` split the bucket list,
and expand each bucket-level fold to the row indices whose month lies in its
train / test bucket sets. -/
def MonthlyTimeSeriesSplit.split (cfg : MonthlyTimeSeriesSplit)
    (X : List Date) : Except PyErr (List (List Nat × List Nat)) :=
  match cfg.bucketList X with
  | .error e => .error e
  | .ok uM =>
    match timeSeriesSplitFolds cfg.n_splits cfg.max_train_size
        cfg.test_size cfg.gap uM.length with
    | .error e => .error e
    | .ok mFolds =>
      .ok (mFolds.map (fun p =>
        let trainMonths := p.1.map (fun a => uM.getD a 0)
        let testMonths := p.2.map (fun b => uM.getD b 0)
        (idxWhere (fun r => trainMonths.contains (monthIdx r)) X,
         idxWhere (fun r => testMonths.contains (monthIdx r)) X)))

/-- `MonthlyTimeSeriesSplit.get_n_splits` (lines 119–144). -/
def MonthlyTimeSeriesSplit.get_n_splits (cfg : MonthlyTimeSeriesSplit) : Int :=
  cfg.n_splits

/-- The dataset's rows are in chronological date order. -/
def Chrono (X : List Date) : Prop :=
  X.Pairwise (fun a b => a.toDay ≤ b.toDay)

instance : DecidablePred Chrono := fun X => by
  unfold Chrono; infer_instance

/-- Every row of the dataset carries an actual calendar date. -/
def AllValid (X : List Date) : Prop :=
  ∀ dt ∈ X, ValidDate dt

instance : DecidablePred AllValid := fun X => by
  unfold AllValid; infer_instance

lemma mem_idxWhere {α : Type*} {p : α → Bool} {l : List α} {i : Nat} :
    i ∈ idxWhere p l ↔ ∃ h : i < l.length, p (l.get ⟨i, h⟩) = true := by
  induction l generalizing i with
  | nil => simp [idxWhere]
  | cons x xs ih =>
    simp only [idxWhere]
    by_cases hx : p x = true
    · rw [if_pos hx]
      cases i with
      | zero => simp [hx]
      | succ j =>
        simp only [List.mem_cons, List.mem_map]
        constructor
        · rintro (h | ⟨a, ha, haj⟩)
          · exact absurd h (by omega)
          · obtain rfl : a = j := by omega
            obtain ⟨hlt, hp⟩ := ih.mp ha
            exact ⟨Nat.succ_lt_succ hlt, by simpa using hp⟩
        · rintro ⟨h, hp⟩
          right
          exact ⟨j, ih.mpr ⟨Nat.lt_of_succ_lt_succ h, by simpa using hp⟩, rfl⟩
    · rw [if_neg hx]
      cases i with
      | zero =>
        simp only [List.mem_map]
        constructor
        · rintro ⟨a, _, haj⟩; omega
        · rintro ⟨h, hp⟩
          simp only [List.get] at hp
          exact absurd hp hx
      | succ j =>
        simp only [List.mem_map]
        constructor
        · rintro ⟨a, ha, haj⟩
          obtain rfl : a = j := by omega
          obtain ⟨hlt, hp⟩ := ih.mp ha
          exact ⟨Nat.succ_lt_succ hlt, by simpa using hp⟩
        · rintro ⟨h, hp⟩
          exact ⟨j, ih.mpr ⟨Nat.lt_of_succ_lt_succ h, by simpa using hp⟩, rfl⟩

lemma weekday_nonneg (z : Int) : 0 ≤ weekday z := by
  unfold weekday; omega

lemma weekday_lt (z : Int) : weekday z < 7 := by
  unfold weekday; omega

lemma wkdayBelow_le (z : Int) : wkdayBelow z ≤ z := by
  unfold wkdayBelow weekday
  split <;> omega

lemma wkdayBelow_weekday (z : Int) : weekday (wkdayBelow z) < 5 := by
  unfold wkdayBelow weekday
  split <;> omega

lemma foldr_min_le_self (l : List Int) (z : Int) : l.foldr min z ≤ z := by
  induction l with
  | nil => simp
  | cons x xs ih => simp only [List.foldr_cons]; omega

lemma foldr_min_le_mem {l : List Int} {z h : Int} (hm : h ∈ l) :
    l.foldr min z ≤ h := by
  induction l with
  | nil => cases hm
  | cons x xs ih =>
    rcases List.mem_cons.mp hm with rfl | hm
    · simp only [List.foldr_cons]; omega
    · have := ih hm
      simp only [List.foldr_cons]; omega

lemma businessFloor_spec (holidays : List Int) (z : Int) :
    isBusinessDay holidays (businessFloor holidays z) = true ∧
    businessFloor holidays z ≤ z := by
  unfold businessFloor
  have h1 := wkdayBelow_le (min z (holidays.foldr min z) - 1)
  have h2 := wkdayBelow_weekday (min z (holidays.foldr min z) - 1)
  have h3 := foldr_min_le_self holidays z
  refine ⟨?_, by omega⟩
  unfold isBusinessDay
  rw [decide_eq_true_iff]
  refine ⟨h2, fun hm => ?_⟩
  have := foldr_min_le_mem (z := z) hm
  omega


lemma snapFuel_spec (holidays : List Int) :
    ∀ (n : Nat) (z b : Int), b ≤ z → isBusinessDay holidays b = true →
    (z - b).toNat < n →
    isBusinessDay holidays (snapFuel holidays n z) = true ∧
    snapFuel holidays n z ≤ z ∧
    ∀ e, snapFuel holidays n z < e → e ≤ z → isBusinessDay holidays e = false := by
  intro n
  induction n with
  | zero => intro z b _ _ hfuel; omega
  | succ n ih =>
    intro z b hbz hb hfuel
    rw [show snapFuel holidays (n + 1) z
        = if isBusinessDay holidays z then z else snapFuel holidays n (z - 1) from rfl]
    by_cases hz : isBusinessDay holidays z = true
    · rw [if_pos hz]
      exact ⟨hz, le_refl z,
        fun e h1 h2 => absurd (lt_of_lt_of_le h1 h2) (lt_irrefl z)⟩
    · have hzb : b ≠ z := fun h => hz (h ▸ hb)
      have hrec := ih (z - 1) b (by omega) hb (by omega)
      rw [if_neg hz]
      refine ⟨hrec.1, by have := hrec.2.1; omega, fun e h1 h2 => ?_⟩
      rcases eq_or_lt_of_le h2 with rfl | h2
      · exact eq_false_of_ne_true hz
      · exact hrec.2.2 e h1 (by omega)

/-- The snapping loop's result is the greatest business day at or before its
start: it is a business day, it is never after the start, and every day
strictly between it and the start is a weekend day or a holiday. -/
theorem snapToBD_spec (holidays : List Int) (z : Int) :
    isBusinessDay holidays (snapToBD holidays z) = true ∧
    snapToBD holidays z ≤ z ∧
    ∀ e, snapToBD holidays z < e → e ≤ z → isBusinessDay holidays e = false := by
  obtain ⟨hb, hle⟩ := businessFloor_spec holidays z
  exact snapFuel_spec holidays _ z (businessFloor holidays z) hle hb (by omega)

/-- `snapToBD` satisfies the defining recurrence of the source's while loop:
keep the day if it is a business day, otherwise recurse on the previous day. -/
theorem snapToBD_eq_loop (holidays : List Int) (z : Int) :
    snapToBD holidays z =
      if isBusinessDay holidays z then z else snapToBD holidays (z - 1) := by
  obtain ⟨hb, hle, hmax⟩ := snapToBD_spec holidays z
  by_cases hz : isBusinessDay holidays z = true
  · rw [if_pos hz]
    by_contra hne
    have hlt : snapToBD holidays z < z := lt_of_le_of_ne hle hne
    have := hmax z hlt (le_refl z)
    rw [hz] at this
    exact Bool.noConfusion this
  · rw [if_neg hz]
    obtain ⟨hb2, hle2, hmax2⟩ := snapToBD_spec holidays (z - 1)
    rcases lt_trichotomy (snapToBD holidays z) (snapToBD holidays (z - 1)) with h | h | h
    · have := hmax (snapToBD holidays (z - 1)) h (by omega)
      rw [hb2] at this
      exact Bool.noConfusion this
    · exact h
    · have hzne : snapToBD holidays z ≠ z := fun he => hz (he ▸ hb)
      have := hmax2 (snapToBD holidays z) h (by omega)
      rw [hb] at this
      exact Bool.noConfusion this

lemma splitGo_cons (cfg : AnchorSplit) (X : List Date) (year : Int)
    (ys : List Int) (folds : Nat) :
    cfg.splitGo X (year :: ys) folds =
      if cfg.n_splits ≤ (folds : Int) then []
      else if (match cfg.min_date with
               | some md => decide (cfg.anchorForYear year < md.toDay)
               | none => false) then []
      else if (cfg.testIdxFor X (cfg.anchorForYear year)).isEmpty then
        cfg.splitGo X ys folds
      else
        { foldNo := folds + 1
          train := AnchorSplit.trainIdxFor X (cfg.anchorForYear year)
          test := cfg.testIdxFor X (cfg.anchorForYear year)
          warnings :=
            if (AnchorSplit.trainIdxFor X (cfg.anchorForYear year)).length < 252 then
              [(folds + 1, (AnchorSplit.trainIdxFor X (cfg.anchorForYear year)).length)]
            else [] }
          :: cfg.splitGo X ys (folds + 1) := rfl

lemma splitGo_length (cfg : AnchorSplit) (X : List Date) :
    ∀ (years : List Int) (folds : Nat),
    (cfg.splitGo X years folds).length ≤ (cfg.n_splits - folds).toNat := by
  intro years
  induction years with
  | nil => intro folds; simp [AnchorSplit.splitGo]
  | cons y ys ih =>
    intro folds
    rw [splitGo_cons]
    split
    · simp
    · split
      · simp
      · split
        · exact ih folds
        · have := ih (folds + 1)
          simp only [List.length_cons]
          omega

lemma splitGo_mem (cfg : AnchorSplit) (X : List Date) :
    ∀ (years : List Int) (folds : Nat) (f : Fold),
    f ∈ cfg.splitGo X years folds →
    ∃ y ∈ years,
      f.train = AnchorSplit.trainIdxFor X (cfg.anchorForYear y) ∧
      f.test = cfg.testIdxFor X (cfg.anchorForYear y) ∧
      f.test ≠ [] ∧
      f.warnings = (if f.train.length < 252 then [(f.foldNo, f.train.length)] else []) := by
  intro years
  induction years with
  | nil => intro folds f hf; simp [AnchorSplit.splitGo] at hf
  | cons y ys ih =>
    intro folds f hf
    rw [splitGo_cons] at hf
    split at hf
    · cases hf
    · split at hf
      · cases hf
      · split at hf
        · obtain ⟨y2, hy2, hrest⟩ := ih folds f hf
          exact ⟨y2, List.mem_cons_of_mem y hy2, hrest⟩
        · rcases List.mem_cons.mp hf with rfl | hf
          · rename_i hne
            refine ⟨y, List.mem_cons_self y ys, rfl, rfl, ?_, rfl⟩
            intro hnil
            have hnil2 : cfg.testIdxFor X (cfg.anchorForYear y) = [] := hnil
            exact hne (by rw [hnil2]; rfl)
          · obtain ⟨y2, hy2, hrest⟩ := ih (folds + 1) f hf
            exact ⟨y2, List.mem_cons_of_mem y hy2, hrest⟩

lemma idxWhere_eq_nil_of {α : Type*} {p : α → Bool} {l : List α}
    (h : ∀ x ∈ l, p x = false) : idxWhere p l = [] := by
  rw [List.eq_nil_iff_forall_not_mem]
  intro i hi
  obtain ⟨hlt, hp⟩ := mem_idxWhere.mp hi
  have hmem : l.get ⟨i, hlt⟩ ∈ l := l.get_mem i hlt
  rw [h _ hmem] at hp
  exact Bool.noConfusion hp

lemma split_dates_def (cfg : AnchorSplit) (X : List Date) :
    cfg.split (.dates X) =
      if cfg.n_splits ≤ 0 then .ok []
      else
        match X with
        | [] => .error .indexError
        | d0 :: _ => .ok (cfg.splitGo X (yearsList (cfg.exec_date.y - 1) d0.y) 0) := rfl

lemma split_ok_elim {cfg : AnchorSplit} {X : List Date} {folds : List Fold}
    (h : cfg.split (.dates X) = .ok folds) :
    folds = [] ∨
    ∃ d0 t, X = d0 :: t ∧
      folds = cfg.splitGo X (yearsList (cfg.exec_date.y - 1) d0.y) 0 := by
  rw [split_dates_def] at h
  split at h
  · left
    exact (Except.ok.inj h).symm
  · cases X with
    | nil => exact Except.noConfusion h
    | cons d0 t =>
      right
      exact ⟨d0, t, rfl, (Except.ok.inj h).symm⟩

/-- C2: `AnchorSplit.split` never yields more than `n_splits` folds, and once
a derived anchor falls strictly before the configured `min_date`, fold
generation stops entirely: the loop breaks, yielding no fold for that year or
any earlier year. -/
theorem anchorSplit_fold_ceiling_and_min_date_break :
    (∀ (cfg : AnchorSplit) (input : PyInput) (folds : List Fold),
      cfg.split input = .ok folds → folds.length ≤ cfg.n_splits.toNat)
    ∧ (∀ (cfg : AnchorSplit) (X : List Date) (year : Int) (ys : List Int)
        (folds : Nat) (md : Date), cfg.min_date = some md →
        cfg.anchorForYear year < md.toDay →
        cfg.splitGo X (year :: ys) folds = []) := by
  constructor
  · intro cfg input folds h
    cases input with
    | other => exact Except.noConfusion h
    | dates X =>
      rcases split_ok_elim h with rfl | ⟨d0, t, rfl, rfl⟩
      · simp
      · have := splitGo_length cfg (d0 :: t) (yearsList (cfg.exec_date.y - 1) d0.y) 0
        omega
  · intro cfg X year ys folds md hmd hlt
    rw [splitGo_cons]
    split
    · rfl
    · rw [if_pos]
      rw [hmd]
      exact decide_eq_true hlt

/-- Witness for C2: a configuration yielding exactly one fold respects the
ceiling, and a `min_date` above the derived anchor empties the walk. -/
theorem anchorSplit_fold_ceiling_and_min_date_break_witness :
    ([⟨1, [], [0, 1], [(1, 0)]⟩] : List Fold).length ≤ (1 : Int).toNat
    ∧ (AnchorSplit.initCfg ⟨1970, 1, 5⟩ 5 [] 3 (some ⟨1970, 6, 1⟩)).splitGo []
        [1969] 0 = [] := by
  constructor
  · exact anchorSplit_fold_ceiling_and_min_date_break.1
      (AnchorSplit.initCfg ⟨1970, 1, 5⟩ 1 [] 3 none)
      (.dates [⟨1969, 1, 6⟩, ⟨1969, 1, 7⟩]) _ rfl
  · exact anchorSplit_fold_ceiling_and_min_date_break.2
      (AnchorSplit.initCfg ⟨1970, 1, 5⟩ 5 [] 3 (some ⟨1970, 6, 1⟩)) []
      1969 [] 0 ⟨1970, 6, 1⟩ rfl (by decide)

/-- C7: when no dataset position has a date inside the inclusive window
`[anchor, test_end]` for the year at the head of the walk, the year is
skipped silently: the walk continues on the remaining years with the fold
counter unchanged, and nothing is yielded for it. -/
theorem anchorSplit_empty_window_skips_year (cfg : AnchorSplit) (X : List Date)
    (year : Int) (ys : List Int) (folds : Nat)
    (hfolds : ¬ cfg.n_splits ≤ (folds : Int))
    (hmd : ∀ md, cfg.min_date = some md → ¬ cfg.anchorForYear year < md.toDay)
    (hwin : ∀ dt ∈ X,
      ¬ (cfg.anchorForYear year ≤ dt.toDay ∧
         dt.toDay ≤ cfg.testEndFor (cfg.anchorForYear year))) :
    cfg.splitGo X (year :: ys) folds = cfg.splitGo X ys folds := by
  rw [splitGo_cons]
  rw [if_neg hfolds]
  rw [if_neg, if_pos]
  · rw [List.isEmpty_iff]
    unfold AnchorSplit.testIdxFor
    apply idxWhere_eq_nil_of
    intro dt hdt
    rw [Bool.eq_false_iff]
    intro hT
    rw [Bool.and_eq_true, decide_eq_true_eq, decide_eq_true_eq] at hT
    exact hwin dt hdt hT
  · cases hmc : cfg.min_date with
    | none => exact Bool.noConfusion
    | some md =>
      intro hdec
      exact hmd md hmc (of_decide_eq_true hdec)

/-- Witness for C7: a dataset entirely before the 1969 test window makes the
walk skip 1969 and move on to 1968 without consuming a fold slot. -/
theorem anchorSplit_empty_window_skips_year_witness :
    (AnchorSplit.initCfg ⟨1970, 1, 5⟩ 2 [] 3 none).splitGo
      [⟨1968, 1, 10⟩] [1969, 1968] 0 =
    (AnchorSplit.initCfg ⟨1970, 1, 5⟩ 2 [] 3 none).splitGo
      [⟨1968, 1, 10⟩] [1968] 0 := by
  exact anchorSplit_empty_window_skips_year
    (AnchorSplit.initCfg ⟨1970, 1, 5⟩ 2 [] 3 none) [⟨1968, 1, 10⟩] 1969 [1968] 0
    (by decide) (fun md h => Option.noConfusion h) (by decide)

/-- C8: a yielded fold whose train index set has fewer than 252 rows carries
exactly the one warning event `(fold number, row count)`; a fold with 252 or
more train rows carries none.  Either way the fold is yielded, its train and
test sets being exactly the index sets computed from its year's anchor, with
a non-empty test set. -/
theorem anchorSplit_low_train_warning (cfg : AnchorSplit) (X : List Date)
    (folds : List Fold) (f : Fold)
    (hok : cfg.split (.dates X) = .ok folds) (hf : f ∈ folds) :
    (f.train.length < 252 → f.warnings = [(f.foldNo, f.train.length)])
    ∧ (252 ≤ f.train.length → f.warnings = [])
    ∧ ∃ y, f.train = AnchorSplit.trainIdxFor X (cfg.anchorForYear y)
        ∧ f.test = cfg.testIdxFor X (cfg.anchorForYear y) ∧ f.test ≠ [] := by
  rcases split_ok_elim hok with rfl | ⟨d0, t, rfl, rfl⟩
  · cases hf
  · obtain ⟨y, _, htr, hte, hne, hwa⟩ := splitGo_mem cfg (d0 :: t) _ 0 f hf
    refine ⟨?_, ?_, y, htr, hte, hne⟩
    · intro hlow
      rw [hwa, if_pos hlow]
    · intro hhigh
      rw [hwa, if_neg (by omega)]

/-- Witness for C8: the single fold of a dataset with no rows before the
anchor has a 0-row train set, so it carries exactly the warning `(1, 0)` and
is still yielded. -/
theorem anchorSplit_low_train_warning_witness :
    (⟨1, [], [0, 1], [(1, 0)]⟩ : Fold).warnings =
      [((⟨1, [], [0, 1], [(1, 0)]⟩ : Fold).foldNo,
        (⟨1, [], [0, 1], [(1, 0)]⟩ : Fold).train.length)] := by
  exact (anchorSplit_low_train_warning
    (AnchorSplit.initCfg ⟨1970, 1, 5⟩ 1 [] 3 none)
    [⟨1969, 1, 6⟩, ⟨1969, 1, 7⟩] [⟨1, [], [0, 1], [(1, 0)]⟩]
    ⟨1, [], [0, 1], [(1, 0)]⟩ rfl (by decide)).1 (by decide)

/-- C6: `AnchorSplit.split` on input pandas cannot interpret as datetimes
fails with the TypeError-equivalent before any fold is produced, while on
date-typed input it never raises that error (it either produces its fold
list, or hits the unrelated IndexError of `dates[0]` on an empty index). -/
theorem anchorSplit_input_type_check (cfg : AnchorSplit) (X : List Date) :
    cfg.split .other = .error .typeError
    ∧ ((∃ folds, cfg.split (.dates X) = .ok folds)
        ∨ cfg.split (.dates X) = .error .indexError) := by
  refine ⟨rfl, ?_⟩
  rw [split_dates_def]
  by_cases h : cfg.n_splits ≤ 0
  · rw [if_pos h]
    exact .inl ⟨[], rfl⟩
  · rw [if_neg h]
    cases X with
    | nil => exact .inr rfl
    | cons d0 t => exact .inl ⟨_, rfl⟩

/-- C10: a concrete date-typed dataset whose rows all fall inside the 1969
test window: the single fold is yielded without error, with an empty train
index set, non-empty test indices, and only the low-train warning. -/
theorem anchorSplit_empty_train_fold_exists :
    (AnchorSplit.initCfg ⟨1970, 1, 5⟩ 1 [] 3 none).split
        (.dates [⟨1969, 1, 6⟩, ⟨1969, 1, 7⟩])
      = .ok [⟨1, [], [0, 1], [(1, 0)]⟩]
    ∧ ([] : List Nat).length = 0
    ∧ ([0, 1] : List Nat) ≠ []
    ∧ ([(1, 0)] : List (Nat × Nat)).length = 1 := by
  exact ⟨rfl, rfl, by decide, rfl⟩

/-- Counterexample to C9: constructing an `AnchorSplit` with
`test_size_bd = 0` succeeds — `__init__` stores `int(test_size_bd)` without
any validation, so no error is possible and an instance is produced. -/
theorem anchorSplit_init_no_validation_counterexample :
    AnchorSplit.init ⟨2025, 1, 10⟩ 7 [] 0 none
      = .ok (AnchorSplit.initCfg ⟨2025, 1, 10⟩ 7 [] 0 none)
    ∧ (AnchorSplit.initCfg ⟨2025, 1, 10⟩ 7 [] 0 none).test_size = 0
    ∧ ∀ e : PyErr, AnchorSplit.init ⟨2025, 1, 10⟩ 7 [] 0 none ≠ .error e := by
  exact ⟨rfl, rfl, fun e h => Except.noConfusion h⟩

/-- C9 amended: construction performs no validation at all — for every
argument tuple, `__init__` succeeds and stores `test_size_bd` unchanged, even
when `test_size_bd ≤ 0`. -/
theorem anchorSplit_init_always_succeeds (exec : Date) (nSplits : Int)
    (hol : List Date) (testSizeBd : Int) (minDate : Option Date) :
    AnchorSplit.init exec nSplits hol testSizeBd minDate
      = .ok (AnchorSplit.initCfg exec nSplits hol testSizeBd minDate)
    ∧ (AnchorSplit.initCfg exec nSplits hol testSizeBd minDate).test_size
        = testSizeBd := ⟨rfl, rfl⟩

/-- Counterexample to C5: with six holidays packed before a Monday candidate,
the snapping loop of `_anchor_for_year` lands 10 days before the candidate —
more than the 7 days the claim allows (the loop only guarantees the nearest
business day at or before the candidate, however far back holidays push it). -/
theorem anchorSplit_snap_beyond_seven_days :
    (AnchorSplit.initCfg ⟨1970, 1, 5⟩ 1
        [⟨1970, 1, 5⟩, ⟨1970, 1, 2⟩, ⟨1970, 1, 1⟩, ⟨1969, 12, 31⟩,
         ⟨1969, 12, 30⟩, ⟨1969, 12, 29⟩] 3 none).candidateForYear 1970 = 4
    ∧ (AnchorSplit.initCfg ⟨1970, 1, 5⟩ 1
        [⟨1970, 1, 5⟩, ⟨1970, 1, 2⟩, ⟨1970, 1, 1⟩, ⟨1969, 12, 31⟩,
         ⟨1969, 12, 30⟩, ⟨1969, 12, 29⟩] 3 none).anchorForYear 1970 = -6
    ∧ ¬ ((4 : Int) - (-6) ≤ 7) := by
  exact ⟨by decide, by decide, by decide⟩

/-- C5 amended: for every holiday list the snapping loop of
`_anchor_for_year` only moves backward from the pre-snapping candidate,
terminates, and lands on the greatest business day (weekday Mon–Fri, not a
holiday) at or before the candidate — within 7 days only when a business day
exists that close, which packed holidays can prevent. -/
theorem anchorSplit_snap_backward_to_nearest_business_day
    (cfg : AnchorSplit) (year : Int) :
    cfg.anchorForYear year ≤ cfg.candidateForYear year
    ∧ isBusinessDay cfg.hol (cfg.anchorForYear year) = true
    ∧ ∀ e, cfg.anchorForYear year < e → e ≤ cfg.candidateForYear year →
        isBusinessDay cfg.hol e = false := by
  obtain ⟨hb, hle, hmax⟩ := snapToBD_spec cfg.hol (cfg.candidateForYear year)
  exact ⟨hle, hb, hmax⟩

/-- Witness for the amended C5: a Sunday candidate (1970-01-04) snaps to the
preceding Friday (1970-01-02); the Saturday in between is not a business
day. -/
theorem anchorSplit_snap_backward_witness :
    (AnchorSplit.initCfg ⟨1970, 1, 4⟩ 1 [] 3 none).anchorForYear 1970
      ≤ (AnchorSplit.initCfg ⟨1970, 1, 4⟩ 1 [] 3 none).candidateForYear 1970
    ∧ isBusinessDay (AnchorSplit.initCfg ⟨1970, 1, 4⟩ 1 [] 3 none).hol
        ((AnchorSplit.initCfg ⟨1970, 1, 4⟩ 1 [] 3 none).anchorForYear 1970) = true
    ∧ isBusinessDay (AnchorSplit.initCfg ⟨1970, 1, 4⟩ 1 [] 3 none).hol 2 = false := by
  obtain ⟨h1, h2, h3⟩ := anchorSplit_snap_backward_to_nearest_business_day
    (AnchorSplit.initCfg ⟨1970, 1, 4⟩ 1 [] 3 none) 1970
  exact ⟨h1, h2, h3 2 (by decide) (by decide)⟩

lemma daysFromCivil_day_linear (y m d : Int) :
    daysFromCivil y m d = daysFromCivil y m 1 + (d - 1) := by
  unfold daysFromCivil
  by_cases hm : m ≤ 2 <;> by_cases hm2 : 2 < m <;> simp only [hm, hm2, if_true,
    if_false, reduceIte] <;> ring

lemma countP_range_weekly (n r : Nat) (h1 : 1 ≤ r) (h2 : r ≤ 7) :
    (List.range n).countP (fun k => decide ((k + 1) % 7 = r % 7))
      = (n + 7 - r) / 7 := by
  induction n with
  | zero =>
    simp only [List.range_zero, List.countP_nil]
    omega
  | succ n ih =>
    rw [List.range_succ, List.countP_append, ih]
    have hsing : (List.countP (fun k => decide ((k + 1) % 7 = r % 7)) [n])
        = if (n + 1) % 7 = r % 7 then 1 else 0 := by
      simp [List.countP_cons]
    rw [hsing]
    by_cases h : (n + 1) % 7 = r % 7
    · rw [if_pos h]
      omega
    · rw [if_neg h]
      omega

lemma weekdayOccurrence_eq (exec : Date) (hd : 1 ≤ exec.d) :
    (weekdayOccurrence exec : Int) = 1 + (exec.d - 1) / 7 := by
  unfold weekdayOccurrence
  have hcong : ∀ k ∈ List.range exec.d.toNat,
      decide (weekday (daysFromCivil exec.y exec.m ((k : Int) + 1))
          = weekday (Date.toDay exec)) = true
        ↔ decide ((k + 1) % 7 = (((exec.d - 1) % 7).toNat + 1) % 7) = true := by
    intro k hk
    rw [decide_eq_true_eq, decide_eq_true_eq]
    rw [daysFromCivil_day_linear exec.y exec.m ((k : Int) + 1)]
    have htd : Date.toDay exec = daysFromCivil exec.y exec.m 1 + (exec.d - 1) := by
      rw [Date.toDay, daysFromCivil_day_linear]
    rw [htd]
    unfold weekday
    omega
  rw [List.countP_congr hcong]
  rw [countP_range_weekly]
  · omega
  · omega
  · omega

/-- C4: for every target year, the pre-snapping anchor candidate of
`_anchor_for_year` is the first day of (year, execution month), plus the
weekday offset `(execution weekday − first-day weekday) mod 7`, plus
`7 × (ordinal − 1)` days, where the captured ordinal is
`1 + (execution_date.day − 1) div 7` — which equals the 1-based occurrence
count of the execution date's weekday within its own month. -/
theorem anchorSplit_candidate_formula (exec : Date) (nSplits : Int)
    (hol : List Date) (testSizeBd : Int) (minDate : Option Date) (year : Int)
    (hd : 1 ≤ exec.d) :
    (AnchorSplit.initCfg exec nSplits hol testSizeBd minDate).candidateForYear year
      = daysFromCivil year exec.m 1
        + (weekday (Date.toDay exec) - weekday (daysFromCivil year exec.m 1)) % 7
        + 7 * ((AnchorSplit.initCfg exec nSplits hol testSizeBd minDate).ordPat - 1)
    ∧ (AnchorSplit.initCfg exec nSplits hol testSizeBd minDate).ordPat
        = 1 + (exec.d - 1) / 7
    ∧ (weekdayOccurrence exec : Int)
        = (AnchorSplit.initCfg exec nSplits hol testSizeBd minDate).ordPat := by
  refine ⟨?_, rfl, ?_⟩
  · unfold AnchorSplit.candidateForYear AnchorSplit.initCfg
    ring
  · rw [weekdayOccurrence_eq exec hd]
    rfl

/-- Witness for C4: the execution date 2025-01-10 is the second Friday of its
month; the captured ordinal is 2 and the 2024 candidate is 2024-01-12. -/
theorem anchorSplit_candidate_formula_witness :
    (AnchorSplit.initCfg ⟨2025, 1, 10⟩ 7 [] 42 none).candidateForYear 2024
      = daysFromCivil 2024 1 1
        + (weekday (Date.toDay ⟨2025, 1, 10⟩) - weekday (daysFromCivil 2024 1 1)) % 7
        + 7 * ((AnchorSplit.initCfg ⟨2025, 1, 10⟩ 7 [] 42 none).ordPat - 1)
    ∧ (weekdayOccurrence ⟨2025, 1, 10⟩ : Int)
        = (AnchorSplit.initCfg ⟨2025, 1, 10⟩ 7 [] 42 none).ordPat := by
  obtain ⟨h1, _, h3⟩ := anchorSplit_candidate_formula ⟨2025, 1, 10⟩ 7 [] 42 none
    2024 (by decide)
  exact ⟨h1, h3⟩

lemma daysFromCivil_month_step (y m : Int) (h1 : 1 ≤ m) (h2 : m ≤ 12) :
    (if m = 12 then daysFromCivil (y + 1) 1 1 else daysFromCivil y (m + 1) 1)
      = daysFromCivil y m 1 + daysInMonth y m := by
  have hfeb : daysFromCivil y 3 1
      = daysFromCivil y 2 1 + (if isLeap y then 29 else 28) := by
    by_cases h : isLeap y = true
    · rw [if_pos h]
      simp only [isLeap, Bool.and_eq_true, Bool.or_eq_true, decide_eq_true_eq,
        bne_iff_ne, ne_eq] at h
      simp only [daysFromCivil]
      norm_num
      omega
    · rw [if_neg h]
      simp only [isLeap, Bool.and_eq_true, Bool.or_eq_true, decide_eq_true_eq,
        bne_iff_ne, ne_eq] at h
      push_neg at h
      simp only [daysFromCivil]
      norm_num
      omega
  interval_cases m
  · norm_num [daysInMonth, daysFromCivil]
    omega
  · norm_num [daysInMonth]
    exact hfeb
  · norm_num [daysInMonth, daysFromCivil]
    omega
  · norm_num [daysInMonth, daysFromCivil]
    omega
  · norm_num [daysInMonth, daysFromCivil]
    omega
  · norm_num [daysInMonth, daysFromCivil]
    omega
  · norm_num [daysInMonth, daysFromCivil]
    omega
  · norm_num [daysInMonth, daysFromCivil]
    omega
  · norm_num [daysInMonth, daysFromCivil]
    omega
  · norm_num [daysInMonth, daysFromCivil]
    omega
  · norm_num [daysInMonth, daysFromCivil]
    omega
  · norm_num [daysInMonth, daysFromCivil]
    omega

lemma daysInMonth_ge (y m : Int) : 28 ≤ daysInMonth y m := by
  unfold daysInMonth
  split
  · split <;> omega
  · split <;> omega

lemma monthFirst_step (j : Int) :
    daysFromCivil ((j + 1) / 12) ((j + 1) % 12 + 1) 1
      = daysFromCivil (j / 12) (j % 12 + 1) 1
        + daysInMonth (j / 12) (j % 12 + 1) := by
  have h := daysFromCivil_month_step (j / 12) (j % 12 + 1) (by omega) (by omega)
  by_cases hm : j % 12 + 1 = 12
  · rw [if_pos hm] at h
    have e1 : (j + 1) / 12 = j / 12 + 1 := by omega
    have e2 : (j + 1) % 12 + 1 = 1 := by omega
    rw [e1, e2]
    exact h
  · rw [if_neg hm] at h
    have e1 : (j + 1) / 12 = j / 12 := by omega
    have e2 : (j + 1) % 12 + 1 = j % 12 + 1 + 1 := by omega
    rw [e1, e2]
    exact h

lemma monthFirst_mono (n : Nat) : ∀ j : Int,
    daysFromCivil (j / 12) (j % 12 + 1) 1
      ≤ daysFromCivil ((j + n) / 12) ((j + n) % 12 + 1) 1 := by
  induction n with
  | zero => intro j; simp
  | succ n ih =>
    intro j
    have h1 := ih (j + 1)
    have h2 := monthFirst_step j
    have h3 := daysInMonth_ge (j / 12) (j % 12 + 1)
    have e : j + ((n : Nat) + 1 : Nat) = j + 1 + (n : Nat) := by push_cast; ring
    rw [e]
    omega

lemma toDay_lt_of_monthIdx_lt {a b : Date} (ha : ValidDate a) (hb : ValidDate b)
    (h : monthIdx a < monthIdx b) : a.toDay < b.toDay := by
  obtain ⟨ham1, ham2, had1, had2⟩ := ha
  obtain ⟨hbm1, hbm2, hbd1, hbd2⟩ := hb
  have la := daysFromCivil_day_linear a.y a.m a.d
  have lb := daysFromCivil_day_linear b.y b.m b.d
  have ea1 : monthIdx a / 12 = a.y := by unfold monthIdx; omega
  have ea2 : monthIdx a % 12 + 1 = a.m := by unfold monthIdx; omega
  have eb1 : monthIdx b / 12 = b.y := by unfold monthIdx; omega
  have eb2 : monthIdx b % 12 + 1 = b.m := by unfold monthIdx; omega
  have hstep := monthFirst_step (monthIdx a)
  have hmono := monthFirst_mono (monthIdx b - (monthIdx a + 1)).toNat (monthIdx a + 1)
  have e : monthIdx a + 1 + ((monthIdx b - (monthIdx a + 1)).toNat : Int)
      = monthIdx b := by omega
  rw [e] at hmono
  rw [ea1, ea2] at hstep
  rw [eb1, eb2] at hmono
  unfold Date.toDay
  rw [la, lb]
  omega

lemma monthIdx_le_of_toDay_le {a b : Date} (ha : ValidDate a) (hb : ValidDate b)
    (h : a.toDay ≤ b.toDay) : monthIdx a ≤ monthIdx b := by
  by_contra hlt
  push_neg at hlt
  exact absurd h (not_le.mpr (toDay_lt_of_monthIdx_lt hb ha hlt))

lemma uniqueAux_sublist {α : Type*} [DecidableEq α] :
    ∀ (l seen : List α), (uniqueAux seen l).Sublist l := by
  intro l
  induction l with
  | nil => intro seen; exact List.Sublist.refl []
  | cons x xs ih =>
    intro seen
    unfold uniqueAux
    by_cases hx : x ∈ seen
    · rw [if_pos hx]
      exact (ih seen).cons x
    · rw [if_neg hx]
      exact (ih (x :: seen)).cons₂ x

lemma uniqueAux_spec {α : Type*} [DecidableEq α] :
    ∀ (l seen : List α),
    (∀ x ∈ uniqueAux seen l, x ∉ seen) ∧ (uniqueAux seen l).Nodup := by
  intro l
  induction l with
  | nil => intro seen; exact ⟨fun x hx => absurd hx (List.not_mem_nil x), List.nodup_nil⟩
  | cons x xs ih =>
    intro seen
    unfold uniqueAux
    by_cases hx : x ∈ seen
    · rw [if_pos hx]
      exact ih seen
    · rw [if_neg hx]
      obtain ⟨hsub, hnd⟩ := ih (x :: seen)
      constructor
      · intro z hz
        rcases List.mem_cons.mp hz with rfl | hz
        · exact hx
        · intro hzs
          exact hsub z hz (List.mem_cons_of_mem x hzs)
      · rw [List.nodup_cons]
        refine ⟨fun hxm => ?_, hnd⟩
        exact hsub x hxm (List.mem_cons_self x seen)

lemma uniqueFirst_nodup {α : Type*} [DecidableEq α] (l : List α) :
    (uniqueFirst l).Nodup :=
  (uniqueAux_spec l []).2

lemma uniqueFirst_sublist {α : Type*} [DecidableEq α] (l : List α) :
    (uniqueFirst l).Sublist l :=
  uniqueAux_sublist l []

lemma uniqueFirst_pairwise_lt {l : List Int} (h : l.Pairwise (· ≤ ·)) :
    (uniqueFirst l).Pairwise (· < ·) := by
  have hle := List.Pairwise.sublist (uniqueFirst_sublist l) h
  have hnd := uniqueFirst_nodup l
  exact ((hle.and hnd)).imp (fun hab => lt_of_le_of_ne hab.1 hab.2)

lemma getD_mem_of_lt {α : Type*} {l : List α} {i : Nat} (h : i < l.length)
    (dflt : α) : l.getD i dflt ∈ l := by
  rw [List.getD_eq_get l dflt h]
  exact l.get_mem i h

lemma pairwise_lt_getD {l : List Int} (h : l.Pairwise (· < ·)) {a b : Nat}
    (hab : a < b) (hb : b < l.length) : l.getD a 0 < l.getD b 0 := by
  have ha : a < l.length := lt_trans hab hb
  rw [List.getD_eq_get l 0 ha, List.getD_eq_get l 0 hb]
  exact List.pairwise_iff_get.mp h ⟨a, ha⟩ ⟨b, hb⟩ hab

lemma mem_sliceIdx {a b : Int} {n : Nat} {i : Nat} :
    i ∈ sliceIdx a b n ↔ a ≤ (i : Int) ∧ (i : Int) < b ∧ i < n := by
  unfold sliceIdx
  simp only [List.mem_filter, List.mem_range, Bool.and_eq_true, decide_eq_true_eq]
  tauto

lemma tss_mem_bounds {ns : Int} {mts tszo : Option Int} {gap : Int} {n : Nat}
    {mf : List (List Nat × List Nat)} {p : List Nat × List Nat}
    (hok : timeSeriesSplitFolds ns mts tszo gap n = .ok mf) (hp : p ∈ mf) :
    ∃ ts : Int,
      (∀ a ∈ p.1, (a : Int) < ts - gap ∧ a < n) ∧
      (∀ b ∈ p.2, ts ≤ (b : Int) ∧ b < n) := by
  simp only [timeSeriesSplitFolds] at hok
  split at hok
  · exact Except.noConfusion hok
  · split at hok
    · exact Except.noConfusion hok
    · split at hok
      · exact Except.noConfusion hok
      · split at hok
        · exact Except.noConfusion hok
        · obtain rfl := (Except.ok.inj hok).symm
          obtain ⟨ts, hts, rfl⟩ := List.mem_map.mp hp
          refine ⟨ts, ?_, ?_⟩
          · intro a ha
            simp only at ha
            rcases hmts : mts with _ | v
            · rw [hmts] at ha
              have ha2 : a ∈ sliceIdx 0 (ts - gap) n := ha
              obtain ⟨h1, h2, h3⟩ := mem_sliceIdx.mp ha2
              exact ⟨h2, h3⟩
            · rw [hmts] at ha
              have ha2 : a ∈ (if v ≠ 0 ∧ v < ts - gap
                  then sliceIdx (ts - gap - v) (ts - gap) n
                  else sliceIdx 0 (ts - gap) n) := ha
              by_cases hc : v ≠ 0 ∧ v < ts - gap
              · rw [if_pos hc] at ha2
                obtain ⟨h1, h2, h3⟩ := mem_sliceIdx.mp ha2
                exact ⟨h2, h3⟩
              · rw [if_neg hc] at ha2
                obtain ⟨h1, h2, h3⟩ := mem_sliceIdx.mp ha2
                exact ⟨h2, h3⟩
          · intro b hb
            obtain ⟨h1, h2, h3⟩ := mem_sliceIdx.mp hb
            exact ⟨h1, h3⟩

lemma monthly_split_ok_elim {cfg : MonthlyTimeSeriesSplit} {X : List Date}
    {folds : List (List Nat × List Nat)} (h : cfg.split X = .ok folds) :
    ∃ uM mf, cfg.bucketList X = .ok uM ∧
      timeSeriesSplitFolds cfg.n_splits cfg.max_train_size cfg.test_size
        cfg.gap uM.length = .ok mf ∧
      folds = mf.map (fun p =>
        (idxWhere (fun r => (p.1.map (fun a => uM.getD a 0)).contains (monthIdx r)) X,
         idxWhere (fun r => (p.2.map (fun b => uM.getD b 0)).contains (monthIdx r)) X)) := by
  unfold MonthlyTimeSeriesSplit.split at h
  split at h
  · exact Except.noConfusion h
  · rename_i uM hb
    split at h
    · exact Except.noConfusion h
    · rename_i mf ht
      exact ⟨uM, mf, hb, ht, (Except.ok.inj h).symm⟩

lemma bucketList_sublist {cfg : MonthlyTimeSeriesSplit} {X : List Date}
    {uM : List Int} (h : cfg.bucketList X = .ok uM) :
    uM.Sublist (uniqueFirst (List.map monthIdx X)) := by
  rcases hmin : cfg.min_days_in_last_month with _ | thr
  · simp only [MonthlyTimeSeriesSplit.bucketList, hmin] at h
    obtain rfl : uniqueFirst (List.map monthIdx X) = uM := Except.ok.inj h
    exact List.Sublist.refl _
  · simp only [MonthlyTimeSeriesSplit.bucketList, hmin] at h
    rcases hL : (uniqueFirst (List.map monthIdx X)).getLast? with _ | lm
    · rw [hL] at h
      exact Except.noConfusion h
    · rw [hL] at h
      have h2 : (match ((List.filter (fun r => decide (monthIdx r = lm)) X).map
          Date.d).max? with
        | some maxDay => Except.ok (if maxDay < thr
            then (uniqueFirst (List.map monthIdx X)).dropLast
            else uniqueFirst (List.map monthIdx X))
        | none => Except.ok (uniqueFirst (List.map monthIdx X))) = Except.ok uM := h
      rcases hM : ((List.filter (fun r => decide (monthIdx r = lm)) X).map
          Date.d).max? with _ | maxDay
      · rw [hM] at h2
        obtain rfl : uniqueFirst (List.map monthIdx X) = uM := Except.ok.inj h2
        exact List.Sublist.refl _
      · rw [hM] at h2
        obtain rfl := Except.ok.inj h2
        split
        · exact List.dropLast_sublist _
        · exact List.Sublist.refl _

lemma months_pairwise_le {X : List Date} (hC : Chrono X) (hV : AllValid X) :
    (X.map monthIdx).Pairwise (· ≤ ·) := by
  rw [List.pairwise_map]
  exact List.Pairwise.imp_of_mem
    (fun ha hb hle => monthIdx_le_of_toDay_le (hV _ ha) (hV _ hb) hle) hC

/-- C1: on every fold either splitter yields from a chronologically ordered
dataset, train and test indices are disjoint and every train row's date is
strictly before every test row's date — for `AnchorSplit` because train rows
precede the anchor and test rows start at it, and for
`MonthlyTimeSeriesSplit` (valid dates, non-negative gap) because every train
row's month bucket is strictly before every test row's month bucket. -/
theorem splitters_no_leakage :
    (∀ (cfg : AnchorSplit) (X : List Date) (folds : List Fold) (f : Fold)
        (i j : Nat), Chrono X → cfg.split (.dates X) = .ok folds → f ∈ folds →
        i ∈ f.train → j ∈ f.test →
        i ≠ j ∧ (X.getD i ⟨1, 1, 1⟩).toDay < (X.getD j ⟨1, 1, 1⟩).toDay)
    ∧ (∀ (cfg : MonthlyTimeSeriesSplit) (X : List Date)
        (folds : List (List Nat × List Nat)) (p : List Nat × List Nat)
        (i j : Nat), 0 ≤ cfg.gap → Chrono X → AllValid X →
        cfg.split X = .ok folds → p ∈ folds → i ∈ p.1 → j ∈ p.2 →
        i ≠ j ∧ monthIdx (X.getD i ⟨1, 1, 1⟩) < monthIdx (X.getD j ⟨1, 1, 1⟩)
          ∧ (X.getD i ⟨1, 1, 1⟩).toDay < (X.getD j ⟨1, 1, 1⟩).toDay) := by
  constructor
  · intro cfg X folds f i j _ hok hf hi hj
    rcases split_ok_elim hok with rfl | ⟨d0, t, rfl, rfl⟩
    · cases hf
    · obtain ⟨y, _, htr, hte, _, _⟩ := splitGo_mem cfg (d0 :: t) _ 0 f hf
      rw [htr] at hi
      rw [hte] at hj
      obtain ⟨hilt, hip⟩ := mem_idxWhere.mp hi
      obtain ⟨hjlt, hjp⟩ := mem_idxWhere.mp hj
      rw [decide_eq_true_eq] at hip
      rw [Bool.and_eq_true, decide_eq_true_eq, decide_eq_true_eq] at hjp
      rw [← List.getD_eq_get (d0 :: t) ⟨1, 1, 1⟩ hilt] at hip
      rw [← List.getD_eq_get (d0 :: t) ⟨1, 1, 1⟩ hjlt] at hjp
      refine ⟨fun hij => ?_, lt_of_lt_of_le hip hjp.1⟩
      rw [hij] at hip
      exact absurd hjp.1 (not_le.mpr hip)
  · intro cfg X folds p i j hgap hC hV hok hp hi hj
    obtain ⟨uM, mf, hb, ht, rfl⟩ := monthly_split_ok_elim hok
    obtain ⟨q, hq, rfl⟩ := List.mem_map.mp hp
    simp only at hi hj
    obtain ⟨hilt, hip⟩ := mem_idxWhere.mp hi
    obtain ⟨hjlt, hjp⟩ := mem_idxWhere.mp hj
    rw [← List.getD_eq_get X ⟨1, 1, 1⟩ hilt] at hip
    rw [← List.getD_eq_get X ⟨1, 1, 1⟩ hjlt] at hjp
    have hivalid : ValidDate (X.getD i ⟨1, 1, 1⟩) := hV _ (getD_mem_of_lt hilt _)
    have hjvalid : ValidDate (X.getD j ⟨1, 1, 1⟩) := hV _ (getD_mem_of_lt hjlt _)
    obtain ⟨a, ha, hav⟩ := List.mem_map.mp (List.elem_iff.mp hip)
    obtain ⟨b, hbq, hbv⟩ := List.mem_map.mp (List.elem_iff.mp hjp)
    obtain ⟨ts, hta, htb⟩ := tss_mem_bounds ht hq
    obtain ⟨ha1, ha2⟩ := hta a ha
    obtain ⟨hb1, hb2⟩ := htb b hbq
    have hab : a < b := by omega
    have hpw : uM.Pairwise (· < ·) :=
      List.Pairwise.sublist (bucketList_sublist hb)
        (uniqueFirst_pairwise_lt (months_pairwise_le hC hV))
    have hmlt : monthIdx (X.getD i ⟨1, 1, 1⟩) < monthIdx (X.getD j ⟨1, 1, 1⟩) := by
      rw [← hav, ← hbv]
      exact pairwise_lt_getD hpw hab hb2
    refine ⟨fun hij => ?_, hmlt, toDay_lt_of_monthIdx_lt hivalid hjvalid hmlt⟩
    rw [hij] at hmlt
    exact absurd hmlt (lt_irrefl _)

/-- Witness for C1: concrete folds of both splitters on small chronological
datasets satisfy the separation. -/
theorem splitters_no_leakage_witness :
    ((0 : Nat) ≠ 2 ∧ (Date.toDay ⟨1968, 1, 2⟩) < (Date.toDay ⟨1969, 1, 6⟩))
    ∧ ((0 : Nat) ≠ 2 ∧ monthIdx ⟨1970, 1, 5⟩ < monthIdx ⟨1970, 2, 3⟩
        ∧ (Date.toDay ⟨1970, 1, 5⟩) < (Date.toDay ⟨1970, 2, 3⟩)) := by
  constructor
  · have h := splitters_no_leakage.1
      (AnchorSplit.initCfg ⟨1970, 1, 5⟩ 1 [] 3 none)
      [⟨1968, 1, 2⟩, ⟨1968, 5, 10⟩, ⟨1969, 1, 6⟩, ⟨1969, 1, 7⟩]
      [⟨1, [0, 1], [2, 3], [(1, 2)]⟩] ⟨1, [0, 1], [2, 3], [(1, 2)]⟩ 0 2
      (by decide) rfl (by decide) (by decide) (by decide)
    exact h
  · have h := splitters_no_leakage.2 ⟨2, none, none, 0, none⟩
      [⟨1970, 1, 5⟩, ⟨1970, 1, 8⟩, ⟨1970, 2, 3⟩, ⟨1970, 3, 2⟩, ⟨1970, 3, 4⟩]
      [([0, 1], [2]), ([0, 1, 2], [3, 4])] ([0, 1], [2]) 0 2
      (by decide) (by decide) (by decide) rfl (by decide) (by decide) (by decide)
    exact h

lemma getLast_not_mem_dropLast {l : List Int} (hnd : l.Nodup) {lm : Int}
    (hL : l.getLast? = some lm) : lm ∉ l.dropLast := by
  have hne : l ≠ [] := by
    intro h
    rw [h] at hL
    exact Option.noConfusion hL
  have hsplit : l.dropLast ++ [l.getLast hne] = l := List.dropLast_append_getLast hne
  have hlm : l.getLast hne = lm := by
    have := List.getLast?_eq_getLast l hne
    rw [hL] at this
    exact (Option.some.inj this).symm
  rw [← hsplit, hlm] at hnd
  obtain ⟨_, _, hdisj⟩ := List.nodup_append.mp hnd
  intro hmem
  exact hdisj hmem (List.mem_singleton.mpr rfl)

lemma bucketList_truncates {cfg : MonthlyTimeSeriesSplit} {X : List Date}
    {thr lm maxDay : Int}
    (hmin : cfg.min_days_in_last_month = some thr)
    (hL : (uniqueFirst (List.map monthIdx X)).getLast? = some lm)
    (hM : ((List.filter (fun r => decide (monthIdx r = lm)) X).map Date.d).max?
      = some maxDay)
    (hlow : maxDay < thr) :
    cfg.bucketList X = .ok (uniqueFirst (List.map monthIdx X)).dropLast := by
  simp only [MonthlyTimeSeriesSplit.bucketList, hmin]
  rw [hL]
  show (match ((List.filter (fun r => decide (monthIdx r = lm)) X).map Date.d).max? with
    | some maxDay => Except.ok (if maxDay < thr
        then (uniqueFirst (List.map monthIdx X)).dropLast
        else uniqueFirst (List.map monthIdx X))
    | none => Except.ok (uniqueFirst (List.map monthIdx X)))
    = Except.ok (uniqueFirst (List.map monthIdx X)).dropLast
  rw [hM]
  show Except.ok (if maxDay < thr
      then (uniqueFirst (List.map monthIdx X)).dropLast
      else uniqueFirst (List.map monthIdx X))
    = Except.ok (uniqueFirst (List.map monthIdx X)).dropLast
  rw [if_pos hlow]

lemma bucketList_keeps {cfg : MonthlyTimeSeriesSplit} {X : List Date} :
    (cfg.min_days_in_last_month = none →
      cfg.bucketList X = .ok (uniqueFirst (List.map monthIdx X)))
    ∧ ∀ thr lm maxDay : Int, cfg.min_days_in_last_month = some thr →
      (uniqueFirst (List.map monthIdx X)).getLast? = some lm →
      ((List.filter (fun r => decide (monthIdx r = lm)) X).map Date.d).max?
        = some maxDay →
      thr ≤ maxDay →
      cfg.bucketList X = .ok (uniqueFirst (List.map monthIdx X)) := by
  constructor
  · intro hmin
    simp only [MonthlyTimeSeriesSplit.bucketList, hmin]
  · intro thr lm maxDay hmin hL hM hge
    simp only [MonthlyTimeSeriesSplit.bucketList, hmin]
    rw [hL]
    show (match ((List.filter (fun r => decide (monthIdx r = lm)) X).map
        Date.d).max? with
      | some maxDay => Except.ok (if maxDay < thr
          then (uniqueFirst (List.map monthIdx X)).dropLast
          else uniqueFirst (List.map monthIdx X))
      | none => Except.ok (uniqueFirst (List.map monthIdx X)))
      = Except.ok (uniqueFirst (List.map monthIdx X))
    rw [hM]
    show Except.ok (if maxDay < thr
        then (uniqueFirst (List.map monthIdx X)).dropLast
        else uniqueFirst (List.map monthIdx X))
      = Except.ok (uniqueFirst (List.map monthIdx X))
    rw [if_neg (not_lt.mpr hge)]

/-- C3: when `min_days_in_last_month` is set and the maximum day-of-month
observed among the last bucket's rows is strictly below it, the last month's
rows appear in no fold's train or test indices; when the maximum reaches the
threshold, or the option is `None`, the last month stays in the bucket
list. -/
theorem monthly_last_month_truncation :
    (∀ (cfg : MonthlyTimeSeriesSplit) (X : List Date) (thr lm maxDay : Int)
        (folds : List (List Nat × List Nat)) (p : List Nat × List Nat) (i : Nat),
      cfg.min_days_in_last_month = some thr →
      (uniqueFirst (List.map monthIdx X)).getLast? = some lm →
      ((List.filter (fun r => decide (monthIdx r = lm)) X).map Date.d).max?
        = some maxDay →
      maxDay < thr →
      cfg.split X = .ok folds → p ∈ folds → (i ∈ p.1 ∨ i ∈ p.2) →
      monthIdx (X.getD i ⟨1, 1, 1⟩) ≠ lm)
    ∧ (∀ (cfg : MonthlyTimeSeriesSplit) (X : List Date),
      (cfg.min_days_in_last_month = none →
        cfg.bucketList X = .ok (uniqueFirst (List.map monthIdx X)))
      ∧ ∀ thr lm maxDay : Int, cfg.min_days_in_last_month = some thr →
        (uniqueFirst (List.map monthIdx X)).getLast? = some lm →
        ((List.filter (fun r => decide (monthIdx r = lm)) X).map Date.d).max?
          = some maxDay →
        thr ≤ maxDay →
        cfg.bucketList X = .ok (uniqueFirst (List.map monthIdx X))) := by
  constructor
  · intro cfg X thr lm maxDay folds p i hmin hL hM hlow hok hp hi
    obtain ⟨uM, mf, hb, ht, rfl⟩ := monthly_split_ok_elim hok
    have hbt := bucketList_truncates hmin hL hM hlow
    obtain rfl : uM = (uniqueFirst (List.map monthIdx X)).dropLast :=
      Except.ok.inj (hb.symm.trans hbt)
    obtain ⟨q, hq, rfl⟩ := List.mem_map.mp hp
    obtain ⟨ts, hta, htb⟩ := tss_mem_bounds ht hq
    have hnotmem : lm ∉ (uniqueFirst (List.map monthIdx X)).dropLast :=
      getLast_not_mem_dropLast (uniqueFirst_nodup _) hL
    rcases hi with hi | hi
    · simp only at hi
      obtain ⟨hilt, hip⟩ := mem_idxWhere.mp hi
      rw [← List.getD_eq_get X ⟨1, 1, 1⟩ hilt] at hip
      obtain ⟨a, ha, hav⟩ := List.mem_map.mp (List.elem_iff.mp hip)
      obtain ⟨_, ha2⟩ := hta a ha
      intro heq
      rw [heq] at hav
      exact hnotmem (hav ▸ getD_mem_of_lt ha2 0)
    · simp only at hi
      obtain ⟨hilt, hip⟩ := mem_idxWhere.mp hi
      rw [← List.getD_eq_get X ⟨1, 1, 1⟩ hilt] at hip
      obtain ⟨b, hbq, hbv⟩ := List.mem_map.mp (List.elem_iff.mp hip)
      obtain ⟨_, hb2⟩ := htb b hbq
      intro heq
      rw [heq] at hbv
      exact hnotmem (hbv ▸ getD_mem_of_lt hb2 0)
  · intro cfg X
    exact bucketList_keeps

/-- Witness for C3: with a last month (April 1970) observed only through day
3 and threshold 10, no fold index maps to April; with no threshold, or with
threshold 3, the bucket list keeps all four months. -/
theorem monthly_last_month_truncation_witness :
    monthIdx (⟨1970, 1, 5⟩ : Date) ≠ 23643
    ∧ MonthlyTimeSeriesSplit.bucketList ⟨2, none, none, 0, none⟩
        [⟨1970, 1, 5⟩, ⟨1970, 1, 8⟩, ⟨1970, 2, 3⟩, ⟨1970, 3, 2⟩, ⟨1970, 3, 25⟩,
         ⟨1970, 4, 2⟩, ⟨1970, 4, 3⟩]
        = .ok [23640, 23641, 23642, 23643]
    ∧ MonthlyTimeSeriesSplit.bucketList ⟨2, none, none, 0, some 3⟩
        [⟨1970, 1, 5⟩, ⟨1970, 1, 8⟩, ⟨1970, 2, 3⟩, ⟨1970, 3, 2⟩, ⟨1970, 3, 25⟩,
         ⟨1970, 4, 2⟩, ⟨1970, 4, 3⟩]
        = .ok [23640, 23641, 23642, 23643] := by
  refine ⟨?_, ?_, ?_⟩
  · exact monthly_last_month_truncation.1 ⟨2, none, none, 0, some 10⟩
      [⟨1970, 1, 5⟩, ⟨1970, 1, 8⟩, ⟨1970, 2, 3⟩, ⟨1970, 3, 2⟩, ⟨1970, 3, 25⟩,
       ⟨1970, 4, 2⟩, ⟨1970, 4, 3⟩] 10 23643 3
      [([0, 1], [2]), ([0, 1, 2], [3, 4])] ([0, 1], [2]) 0
      rfl (by decide) (by decide) (by decide) rfl (by decide) (by decide)
  · have h := (monthly_last_month_truncation.2 ⟨2, none, none, 0, none⟩
      [⟨1970, 1, 5⟩, ⟨1970, 1, 8⟩, ⟨1970, 2, 3⟩, ⟨1970, 3, 2⟩, ⟨1970, 3, 25⟩,
       ⟨1970, 4, 2⟩, ⟨1970, 4, 3⟩]).1 rfl
    rw [h]
    rfl
  · have h := (monthly_last_month_truncation.2 ⟨2, none, none, 0, some 3⟩
      [⟨1970, 1, 5⟩, ⟨1970, 1, 8⟩, ⟨1970, 2, 3⟩, ⟨1970, 3, 2⟩, ⟨1970, 3, 25⟩,
       ⟨1970, 4, 2⟩, ⟨1970, 4, 3⟩]).2 3 23643 3 rfl (by decide) (by decide)
      (by decide)
    rw [h]
    rfl
